import Mathlib

/-!
Verification of the sxtwl-rs lunisolar-calendar core.

The Rust source is shallowly embedded: `f64` values are modelled as `ℚ`
(all constants appearing in the relevant code paths are decimal literals,
and the verified properties are order/branch/floor facts), machine
integers as `ℕ`/`ℤ`, and fallible indexing as `List.getD` together with
explicit in-bounds lemmas.  Transcendental helpers (`cos`, `π`) that the
verified claims never evaluate are passed as explicit function/value
parameters of the embedding.
-/

set_option maxHeartbeats 1600000

namespace SxtwlRs

/-! Section: Correction-table codec
Embeds `string_to_two_bits` and the generated `get_shuo_value` /
`get_qi_value` decoders from `build.rs` / `builder/modules/qishuo/mod.rs`. -/

/-- Symbol value of a character, as in `string_to_two_bits`:
`'0' ↦ 0`, `'1' ↦ 1`, `'2' ↦ 2`, anything else defaults to 0. -/
def charValue (c : Char) : ℕ :=
  if c = '0' then 0 else if c = '1' then 1 else if c = '2' then 2 else 0

/-- Packing loop of `string_to_two_bits`: arguments are the remaining
characters, the bytes emitted so far, the byte being filled, and the number
of bits already occupied in it.  Each symbol takes 2 bits, placed
most-significant first (`value << (6 - bit_count)`); a byte is flushed after
4 symbols, and a final partially-filled byte is flushed at the end. -/
def stringToTwoBitsGo : List Char → List ℕ → ℕ → ℕ → List ℕ
  | [], bytes, cur, bitCount => if 0 < bitCount then bytes ++ [cur] else bytes
  | ch :: rest, bytes, cur, bitCount =>
    if bitCount + 2 = 8 then
      stringToTwoBitsGo rest (bytes ++ [cur ||| (charValue ch <<< (6 - bitCount))]) 0 0
    else
      stringToTwoBitsGo rest bytes (cur ||| (charValue ch <<< (6 - bitCount))) (bitCount + 2)

/-- Source `string_to_two_bits`: packs a symbol string into bytes and returns the
byte list together with the logical symbol count (the string length). -/
def stringToTwoBits (s : List Char) : List ℕ × ℕ :=
  (stringToTwoBitsGo s [] 0 0, s.length)

/-- The generated decoders `get_shuo_value` / `get_qi_value`: return 0 for
an index at or beyond the logical length, otherwise extract the 2-bit field
at offset `(index % 4) * 2` from the most-significant end of byte
`index / 4`. -/
def getTwoBitValue (bytes : List ℕ) (len : ℕ) (index : ℕ) : ℕ :=
  if len ≤ index then 0
  else (bytes.getD (index / 4) 0 >>> (6 - index % 4 * 2)) &&& 3

/-- A byte holding four 2-bit symbols, most-significant first, exactly as
accumulated by four iterations of the packing loop. -/
def packByte (a b c d : ℕ) : ℕ :=
  (((0 ||| a <<< 6) ||| b <<< 4) ||| c <<< 2) ||| d <<< 0

theorem charValue_lt (c : Char) : charValue c < 4 := by
  unfold charValue
  split
  · norm_num
  split
  · norm_num
  split <;> norm_num

theorem charValue_cases (c : Char) :
    charValue c = 0 ∨ charValue c = 1 ∨ charValue c = 2 := by
  unfold charValue
  split
  · exact Or.inl rfl
  split
  · exact Or.inr (Or.inl rfl)
  split
  · exact Or.inr (Or.inr rfl)
  · exact Or.inl rfl

theorem stringToTwoBitsGo_append (s : List Char) :
    ∀ (B : List ℕ) (cur bitCount : ℕ),
      stringToTwoBitsGo s B cur bitCount = B ++ stringToTwoBitsGo s [] cur bitCount := by
  induction s with
  | nil =>
    intro B cur bitCount
    by_cases h : 0 < bitCount <;> simp [stringToTwoBitsGo, h]
  | cons c rest ih =>
    intro B cur bitCount
    by_cases h : bitCount + 2 = 8
    · simp only [stringToTwoBitsGo, if_pos h]
      rw [ih (B ++ [cur ||| (charValue c <<< (6 - bitCount))]),
        ih ([] ++ [cur ||| (charValue c <<< (6 - bitCount))])]
      simp
    · simp only [stringToTwoBitsGo, if_neg h]
      exact ih B _ _

theorem stringToTwoBitsGo_cons4 (c0 c1 c2 c3 : Char) (rest : List Char) :
    stringToTwoBitsGo (c0 :: c1 :: c2 :: c3 :: rest) [] 0 0 =
      packByte (charValue c0) (charValue c1) (charValue c2) (charValue c3) ::
        stringToTwoBitsGo rest [] 0 0 := by
  rw [show stringToTwoBitsGo (c0 :: c1 :: c2 :: c3 :: rest) [] 0 0 =
      stringToTwoBitsGo rest
        [packByte (charValue c0) (charValue c1) (charValue c2) (charValue c3)] 0 0 by
    norm_num [stringToTwoBitsGo, packByte]]
  rw [stringToTwoBitsGo_append rest]
  simp

theorem packByte_extract : ∀ a b c d : Fin 4,
    ((packByte a b c d >>> 6) &&& 3 = a) ∧
    ((packByte a b c d >>> 4) &&& 3 = b) ∧
    ((packByte a b c d >>> 2) &&& 3 = c) ∧
    ((packByte a b c d >>> 0) &&& 3 = d) := by
  decide

theorem packByte_pad1 (a : ℕ) : a <<< 6 = packByte a 0 0 0 := by
  simp [packByte, Nat.zero_shiftLeft, Nat.zero_or, Nat.or_zero]

theorem packByte_pad2 (a b : ℕ) :
    a <<< 6 ||| b <<< 4 = packByte a b 0 0 := by
  simp [packByte, Nat.zero_shiftLeft, Nat.zero_or, Nat.or_zero]

theorem packByte_pad3 (a b c : ℕ) :
    a <<< 6 ||| b <<< 4 ||| c <<< 2 = packByte a b c 0 := by
  simp [packByte, Nat.zero_shiftLeft, Nat.zero_or, Nat.or_zero]

/-- Decoding byte `i / 4` at in-byte offset `i % 4` of the packed stream
recovers the `i`-th input symbol value, for every input string. -/
theorem packExtract : ∀ (s : List Char) (i : ℕ), i < s.length →
    ((stringToTwoBitsGo s [] 0 0).getD (i / 4) 0 >>> (6 - i % 4 * 2)) &&& 3 =
      charValue (s.getD i '0')
  | [], i, h => absurd h (by simp)
  | c0 :: c1 :: c2 :: c3 :: rest, i, h => by
    rw [stringToTwoBitsGo_cons4]
    by_cases h4 : i < 4
    · have hv0 := charValue_lt c0
      have hv1 := charValue_lt c1
      have hv2 := charValue_lt c2
      have hv3 := charValue_lt c3
      have hext := packByte_extract ⟨charValue c0, hv0⟩ ⟨charValue c1, hv1⟩
        ⟨charValue c2, hv2⟩ ⟨charValue c3, hv3⟩
      simp only [Fin.val_mk] at hext
      interval_cases i
      · simpa using hext.1
      · simpa using hext.2.1
      · simpa using hext.2.2.1
      · simpa using hext.2.2.2
    · obtain ⟨j, rfl⟩ : ∃ j, i = j + 4 := ⟨i - 4, by omega⟩
      have hdiv : (j + 4) / 4 = j / 4 + 1 := Nat.add_div_right j (by norm_num)
      have hmod : (j + 4) % 4 = j % 4 := Nat.add_mod_right j 4
      rw [hdiv, hmod, List.getD_cons_succ]
      have hj : j < rest.length := by
        simp only [List.length_cons] at h
        omega
      have := packExtract rest j hj
      simpa using this
  | [c0], i, h => by
    have hi : i = 0 := by simp at h; omega
    subst hi
    have hv0 := charValue_lt c0
    have hext := (packByte_extract ⟨charValue c0, hv0⟩ 0 0 0).1
    simp only [Fin.val_mk, Fin.val_zero] at hext
    rw [show stringToTwoBitsGo [c0] [] 0 0 = [packByte (charValue c0) 0 0 0] by
      norm_num [stringToTwoBitsGo, packByte_pad1]]
    simpa using hext
  | [c0, c1], i, h => by
    have hv0 := charValue_lt c0
    have hv1 := charValue_lt c1
    have hext := packByte_extract ⟨charValue c0, hv0⟩ ⟨charValue c1, hv1⟩ 0 0
    simp only [Fin.val_mk, Fin.val_zero] at hext
    rw [show stringToTwoBitsGo [c0, c1] [] 0 0 = [packByte (charValue c0) (charValue c1) 0 0] by
      norm_num [stringToTwoBitsGo, packByte_pad2]]
    simp only [List.length_cons, List.length_nil] at h
    interval_cases i
    · simpa using hext.1
    · simpa using hext.2.1
  | [c0, c1, c2], i, h => by
    have hv0 := charValue_lt c0
    have hv1 := charValue_lt c1
    have hv2 := charValue_lt c2
    have hext := packByte_extract ⟨charValue c0, hv0⟩ ⟨charValue c1, hv1⟩
      ⟨charValue c2, hv2⟩ 0
    simp only [Fin.val_mk, Fin.val_zero] at hext
    rw [show stringToTwoBitsGo [c0, c1, c2] [] 0 0 =
        [packByte (charValue c0) (charValue c1) (charValue c2) 0] by
      norm_num [stringToTwoBitsGo, packByte_pad3]]
    simp only [List.length_cons, List.length_nil] at h
    interval_cases i
    · simpa using hext.1
    · simpa using hext.2.1
    · simpa using hext.2.2.1
termination_by s => s.length

/-- The packed byte list has `⌈len / 4⌉` bytes. -/
theorem pack_length : ∀ s : List Char,
    (stringToTwoBitsGo s [] 0 0).length = (s.length + 3) / 4
  | [] => by simp [stringToTwoBitsGo]
  | [c0] => by norm_num [stringToTwoBitsGo]
  | [c0, c1] => by norm_num [stringToTwoBitsGo]
  | [c0, c1, c2] => by norm_num [stringToTwoBitsGo]
  | c0 :: c1 :: c2 :: c3 :: rest => by
    rw [stringToTwoBitsGo_cons4]
    have := pack_length rest
    simp only [List.length_cons, this]
    omega
termination_by s => s.length

/-- C5: packing a sequence of symbols drawn from {0,1,2} with
`string_to_two_bits` and decoding every in-range index with the 2-bit
decoder reproduces the original symbol sequence exactly (this holds for
every length, in particular 0, 1, 4, 5 and 4000). -/
theorem pack_decode_roundtrip (s : List Char)
    (_hsym : ∀ c ∈ s, c = '0' ∨ c = '1' ∨ c = '2') :
    ∀ i, i < (stringToTwoBits s).2 →
      getTwoBitValue (stringToTwoBits s).1 (stringToTwoBits s).2 i =
        charValue (s.getD i '0') := by
  intro i hi
  simp only [stringToTwoBits] at hi ⊢
  rw [getTwoBitValue, if_neg (by omega)]
  exact packExtract s i hi

theorem pack_decode_roundtrip_witness :
    (∀ c ∈ ['0', '2', '1', '0', '2'], c = '0' ∨ c = '1' ∨ c = '2') ∧
      (0 < (stringToTwoBits ['0', '2', '1', '0', '2']).2 ∧
        getTwoBitValue (stringToTwoBits ['0', '2', '1', '0', '2']).1
          (stringToTwoBits ['0', '2', '1', '0', '2']).2 0 =
          charValue (['0', '2', '1', '0', '2'].getD 0 '0')) ∧
      4 < (stringToTwoBits ['0', '2', '1', '0', '2']).2 ∧
        getTwoBitValue (stringToTwoBits ['0', '2', '1', '0', '2']).1
          (stringToTwoBits ['0', '2', '1', '0', '2']).2 4 =
          charValue (['0', '2', '1', '0', '2'].getD 4 '0') :=
  ⟨by decide,
   ⟨by decide, pack_decode_roundtrip ['0', '2', '1', '0', '2'] (by decide) 0 (by decide)⟩,
   by decide, pack_decode_roundtrip ['0', '2', '1', '0', '2'] (by decide) 4 (by decide)⟩

/-- C4: the 2-bit decoder returns 0 at or beyond the logical length; below
it, it returns the 2-bit field at offset `(i % 4) * 2` from the
most-significant end of byte `i / 4`, that byte index is within the packed
array (no panic), and the decoded symbol is always one of {0, 1, 2}. -/
theorem decoder_contract (s : List Char) (i : ℕ) :
    ((stringToTwoBits s).2 ≤ i →
      getTwoBitValue (stringToTwoBits s).1 (stringToTwoBits s).2 i = 0) ∧
    (i < (stringToTwoBits s).2 →
      getTwoBitValue (stringToTwoBits s).1 (stringToTwoBits s).2 i =
        ((stringToTwoBits s).1.getD (i / 4) 0 >>> (6 - i % 4 * 2)) &&& 3 ∧
      i / 4 < (stringToTwoBits s).1.length) ∧
    (getTwoBitValue (stringToTwoBits s).1 (stringToTwoBits s).2 i = 0 ∨
      getTwoBitValue (stringToTwoBits s).1 (stringToTwoBits s).2 i = 1 ∨
      getTwoBitValue (stringToTwoBits s).1 (stringToTwoBits s).2 i = 2) := by
  refine ⟨fun h => by simp [getTwoBitValue, stringToTwoBits] at h ⊢; omega, fun h => ?_, ?_⟩
  · constructor
    · simp only [stringToTwoBits] at h ⊢
      rw [getTwoBitValue, if_neg (by omega)]
    · simp only [stringToTwoBits] at h ⊢
      rw [pack_length s]
      omega
  · by_cases h : i < (stringToTwoBits s).2
    · have := packExtract s i (by simpa [stringToTwoBits] using h)
      simp only [stringToTwoBits] at h ⊢
      rw [getTwoBitValue, if_neg (by omega), this]
      exact charValue_cases _
    · left
      simp only [stringToTwoBits] at h ⊢
      rw [getTwoBitValue, if_pos (by omega)]

theorem decoder_contract_witness :
    ((stringToTwoBits ['0', '1', '2']).2 ≤ 7 →
      getTwoBitValue (stringToTwoBits ['0', '1', '2']).1 (stringToTwoBits ['0', '1', '2']).2 7 = 0) ∧
    (1 < (stringToTwoBits ['0', '1', '2']).2 ∧
      getTwoBitValue (stringToTwoBits ['0', '1', '2']).1 (stringToTwoBits ['0', '1', '2']).2 1 =
        ((stringToTwoBits ['0', '1', '2']).1.getD (1 / 4) 0 >>> (6 - 1 % 4 * 2)) &&& 3 ∧
      1 / 4 < (stringToTwoBits ['0', '1', '2']).1.length) :=
  ⟨(decoder_contract ['0', '1', '2'] 7).1,
   by decide, (decoder_contract ['0', '1', '2'] 1).2.1 (by decide)⟩

/-! Section: Precision-regime selector and flat-phase computation
Embeds `qishuo_fit_parameter.rs` and the regime logic of
`lunar_phase_calculator.rs` (`determine_calculation_method`,
`calculate_flat_phase`, `calculate_high_precision`, `calculate_phase`). -/

/-- J2000 Julian Day (`consts::J2000`). -/
def J2000 : ℚ := 2451545.0

/-- Fixed cutoff Julian Day 1960-01-01 12:00 (`JD_1960_1_1_12_00_00`). -/
def JD_1960 : ℚ := 2436935.0

/-- Tropical year length in days (`consts::TROPICAL_YEAR_DAYS`). -/
def TROPICAL_YEAR_DAYS : ℚ := 365.2422

/-- Mean lunar month length in days (`consts::LUNAR_MONTH_DAYS`). -/
def LUNAR_MONTH_DAYS : ℚ := 29.5306

/-- Nominal solar-term spacing (`consts::JIEQI_INTERVAL`). -/
def JIEQI_INTERVAL : ℚ := TROPICAL_YEAR_DAYS / 24

/-- One historical fit segment: start Julian Day and period in days. -/
structure FitParameter where
  startJulianDay : ℚ
  periodDays : ℚ
  deriving DecidableEq

instance : Inhabited FitParameter := ⟨⟨0, 0⟩⟩

/-- Source `SHUO_FIT_PARAMETERS` from `qishuo_fit_parameter.rs`. -/
def SHUO_FIT_PARAMETERS : List FitParameter :=
  [⟨1457698.231017, 29.53067166⟩,
   ⟨1546082.512234, 29.53085106⟩,
   ⟨1640640.735300, 29.53060000⟩,
   ⟨1642472.151543, 29.53085439⟩,
   ⟨1683430.509300, 29.53086148⟩,
   ⟨1752148.041079, 29.53085097⟩,
   ⟨1807665.420323, 29.53059851⟩,
   ⟨1883618.114100, 29.53060000⟩,
   ⟨1907360.704700, 29.53060000⟩,
   ⟨1936596.224900, 29.53060000⟩,
   ⟨1939135.675300, 29.53060000⟩]

/-- Source `QI_FIT_PARAMETERS` from `qishuo_fit_parameter.rs`. -/
def QI_FIT_PARAMETERS : List FitParameter :=
  [⟨1640650.479938, 15.21842500⟩,
   ⟨1642476.703182, 15.21874996⟩,
   ⟨1683430.515601, 15.218750011⟩,
   ⟨1752157.640664, 15.218749978⟩,
   ⟨1807675.003759, 15.218620279⟩,
   ⟨1883627.765182, 15.218612292⟩,
   ⟨1907369.128100, 15.218449176⟩,
   ⟨1936603.140413, 15.218425000⟩,
   ⟨1939145.524180, 15.218466998⟩,
   ⟨1947180.798300, 15.218524844⟩,
   ⟨1964362.041824, 15.218533526⟩,
   ⟨1987372.340971, 15.218513908⟩,
   ⟨1999653.819126, 15.218530782⟩,
   ⟨2007445.469786, 15.218535181⟩,
   ⟨2021324.917146, 15.218526248⟩,
   ⟨2047257.232342, 15.218519654⟩,
   ⟨2070282.898213, 15.218425000⟩,
   ⟨2073204.872850, 15.218515221⟩,
   ⟨2080144.500926, 15.218530782⟩,
   ⟨2086703.688963, 15.218523776⟩,
   ⟨2110033.182763, 15.218425000⟩,
   ⟨2111190.300888, 15.218425000⟩,
   ⟨2113731.271005, 15.218515671⟩,
   ⟨2120670.840263, 15.218425000⟩,
   ⟨2123973.309063, 15.218425000⟩,
   ⟨2125068.997336, 15.218477932⟩,
   ⟨2136026.312633, 15.218472436⟩,
   ⟨2156099.495538, 15.218425000⟩,
   ⟨2159021.324663, 15.218425000⟩,
   ⟨2162308.575254, 15.218461742⟩,
   ⟨2178485.706538, 15.218425000⟩,
   ⟨2178759.662849, 15.218445786⟩,
   ⟨2185334.020800, 15.218425000⟩,
   ⟨2187525.481425, 15.218425000⟩,
   ⟨2188621.191481, 15.218437494⟩]

/-- Calculation type: solar term (`Qi`) or new moon (`Shuo`). -/
inductive CalculationType where
  | qi
  | shuo
  deriving DecidableEq

/-- Calculation method (regime). -/
inductive CalculationMethod where
  | highPrecision
  | flatPhase
  | fixedPhase
  deriving DecidableEq

/-- Source `get_fit_parameters`. -/
def getFitParameters : CalculationType → List FitParameter
  | .qi => QI_FIT_PARAMETERS
  | .shuo => SHUO_FIT_PARAMETERS

/-- Source `get_period_constant`. -/
def getPeriodConstant : CalculationType → ℚ
  | .qi => 7.0
  | .shuo => 14.0

/-- Start Julian Day of segment `k` of a fit table (0 past the end). -/
def segStart (ps : List FitParameter) (k : ℕ) : ℚ :=
  (ps.getD k default).startJulianDay

/-- Source `determine_calculation_method`: takes the absolute Julian Day
`jd = query + J2000`.  `f1` is the first segment's start minus the period
constant, `f2` the last segment's start minus the period constant. -/
def determineCalculationMethod (jd : ℚ) (ct : CalculationType) : CalculationMethod :=
  if jd < segStart (getFitParameters ct) 0 - getPeriodConstant ct ∨ JD_1960 ≤ jd then
    .highPrecision
  else if segStart (getFitParameters ct) 0 - getPeriodConstant ct ≤ jd ∧
      jd < ((getFitParameters ct).getLastD default).startJulianDay - getPeriodConstant ct then
    .flatPhase
  else .fixedPhase

/-- Segment-scan loop of `calculate_flat_phase`: starting from index `i`,
advance while the next segment exists and starts at or before `x`
(`x` is `adjusted_jd + pc`).  `fuel` bounds the iteration count; it is
called with `fuel = ps.length`, which the loop can never exhaust. -/
def flatIdxGo (x : ℚ) (ps : List FitParameter) : ℕ → ℕ → ℕ
  | 0, i => i
  | fuel + 1, i =>
    if i + 1 < ps.length ∧ segStart ps (i + 1) ≤ x then flatIdxGo x ps fuel (i + 1)
    else i

/-- Body of `calculate_flat_phase` once the segment index `i` is fixed:
`d = start + period·⌊(x + pc − start)/period⌋`, floor-rounded to a half-day
boundary `⌊d⌋ + 0.5`, one day added when that equals Julian Day 1683460.0,
and the result shifted to be relative to J2000. -/
def flatFormulaAt (ps : List FitParameter) (pc x : ℚ) (i : ℕ) : ℚ :=
  let p := ps.getD i default
  let d := p.startJulianDay + p.periodDays * ⌊(x + pc - p.startJulianDay) / p.periodDays⌋
  let r : ℚ := (⌊d⌋ : ℚ) + 1 / 2
  (if r = 1683460.0 then r + 1 else r) - J2000

/-- Source `calculate_flat_phase`: historical flat-period computation on the
absolute Julian Day `x`; scans for the containing segment, then applies the
flat-period formula. -/
def calculateFlatPhase (x : ℚ) (ct : CalculationType) : ℚ :=
  flatFormulaAt (getFitParameters ct) (getPeriodConstant ct) x
    (flatIdxGo (x + getPeriodConstant ct) (getFitParameters ct) (getFitParameters ct).length 0)

theorem flatIdxGo_spec (x : ℚ) (ps : List FitParameter)
    (hmono : ∀ b, b < ps.length → ∀ a, a < b → segStart ps a ≤ segStart ps b) :
    ∀ (fuel i : ℕ), i < ps.length → segStart ps i ≤ x → ps.length ≤ fuel + i + 1 →
      flatIdxGo x ps fuel i < ps.length ∧
      segStart ps (flatIdxGo x ps fuel i) ≤ x ∧
      ∀ k, k < ps.length → segStart ps k ≤ x → k ≤ flatIdxGo x ps fuel i := by
  intro fuel
  induction fuel with
  | zero =>
    intro i hi hx hlen
    simp only [flatIdxGo]
    exact ⟨hi, hx, fun k hk _ => by omega⟩
  | succ fuel ih =>
    intro i hi hx hlen
    by_cases hc : i + 1 < ps.length ∧ segStart ps (i + 1) ≤ x
    · simp only [flatIdxGo, if_pos hc]
      exact ih (i + 1) hc.1 hc.2 (by omega)
    · simp only [flatIdxGo, if_neg hc]
      refine ⟨hi, hx, fun k hk hkx => ?_⟩
      by_contra hgt
      push_neg at hgt
      have h1 : i + 1 < ps.length := by omega
      have h2 : ¬ segStart ps (i + 1) ≤ x := fun h => hc ⟨h1, h⟩
      rcases Nat.lt_or_ge (i + 1) k with hlt | hge
      · exact h2 (le_trans (hmono k hk (i + 1) hlt) hkx)
      · have : k = i + 1 := by omega
        exact h2 (this ▸ hkx)

theorem segStart_mono_of_chain (ps : List FitParameter)
    (hch : List.Chain' (fun p q : FitParameter => p.startJulianDay ≤ q.startJulianDay) ps) :
    ∀ b, b < ps.length → ∀ a, a < b → segStart ps a ≤ segStart ps b := by
  haveI : IsTrans FitParameter (fun p q : FitParameter => p.startJulianDay ≤ q.startJulianDay) :=
    ⟨fun _ _ _ h1 h2 => le_trans h1 h2⟩
  intro b hb a hab
  have hpw := List.chain'_iff_pairwise.mp hch
  have := List.pairwise_iff_get.mp hpw ⟨a, by omega⟩ ⟨b, hb⟩ hab
  simpa [segStart, List.getD_eq_getElem?_getD, List.getElem?_eq_getElem, hb,
    show a < ps.length by omega, List.get_eq_getElem] using this

theorem qi_table_chain :
    List.Chain' (fun p q : FitParameter => p.startJulianDay ≤ q.startJulianDay)
      QI_FIT_PARAMETERS := by
  norm_num [QI_FIT_PARAMETERS, List.chain'_cons]

theorem shuo_table_chain :
    List.Chain' (fun p q : FitParameter => p.startJulianDay ≤ q.startJulianDay)
      SHUO_FIT_PARAMETERS := by
  norm_num [SHUO_FIT_PARAMETERS, List.chain'_cons]

theorem table_mono (ct : CalculationType) : ∀ b, b < (getFitParameters ct).length →
    ∀ a, a < b → segStart (getFitParameters ct) a ≤ segStart (getFitParameters ct) b := by
  cases ct
  · exact segStart_mono_of_chain _ qi_table_chain
  · exact segStart_mono_of_chain _ shuo_table_chain

theorem qi_table_last : QI_FIT_PARAMETERS.getLastD default = ⟨2188621.191481, 15.218437494⟩ :=
  rfl

theorem shuo_table_last : SHUO_FIT_PARAMETERS.getLastD default = ⟨1939135.675300, 29.53060000⟩ :=
  rfl

theorem f2_lt_cutoff (ct : CalculationType) :
    ((getFitParameters ct).getLastD default).startJulianDay - getPeriodConstant ct < JD_1960 := by
  cases ct
  · rw [show getFitParameters CalculationType.qi = QI_FIT_PARAMETERS from rfl, qi_table_last]
    norm_num [getPeriodConstant, JD_1960]
  · rw [show getFitParameters CalculationType.shuo = SHUO_FIT_PARAMETERS from rfl,
      shuo_table_last]
    norm_num [getPeriodConstant, JD_1960]

theorem f1_le_f2 (ct : CalculationType) :
    segStart (getFitParameters ct) 0 - getPeriodConstant ct ≤
      ((getFitParameters ct).getLastD default).startJulianDay - getPeriodConstant ct := by
  cases ct
  · rw [show getFitParameters CalculationType.qi = QI_FIT_PARAMETERS from rfl, qi_table_last,
      show segStart QI_FIT_PARAMETERS 0 = 1640650.479938 from rfl]
    norm_num
  · rw [show getFitParameters CalculationType.shuo = SHUO_FIT_PARAMETERS from rfl,
      shuo_table_last, show segStart SHUO_FIT_PARAMETERS 0 = 1457698.231017 from rfl]
    norm_num

theorem dcm_highPrecision_iff (jd : ℚ) (ct : CalculationType) :
    determineCalculationMethod jd ct = .highPrecision ↔
      (jd < segStart (getFitParameters ct) 0 - getPeriodConstant ct ∨ JD_1960 ≤ jd) := by
  unfold determineCalculationMethod
  split
  · next h => exact iff_of_true rfl h
  · next h =>
    refine iff_of_false ?_ h
    split <;> decide

theorem dcm_flatPhase_iff (jd : ℚ) (ct : CalculationType) :
    determineCalculationMethod jd ct = .flatPhase ↔
      (segStart (getFitParameters ct) 0 - getPeriodConstant ct ≤ jd ∧
        jd < ((getFitParameters ct).getLastD default).startJulianDay - getPeriodConstant ct) := by
  have hf2 := f2_lt_cutoff ct
  unfold determineCalculationMethod
  split
  · next h =>
    refine iff_of_false (by decide) fun hc => ?_
    rcases h with h | h
    · exact absurd hc.1 (not_le.mpr h)
    · exact absurd h (not_le.mpr (lt_trans hc.2 hf2))
  · next h =>
    split
    · next hc => exact iff_of_true rfl hc
    · next hc => exact iff_of_false (by decide) hc

theorem dcm_fixedPhase_iff (jd : ℚ) (ct : CalculationType) :
    determineCalculationMethod jd ct = .fixedPhase ↔
      (((getFitParameters ct).getLastD default).startJulianDay - getPeriodConstant ct ≤ jd ∧
        jd < JD_1960) := by
  have hf12 := f1_le_f2 ct
  unfold determineCalculationMethod
  split
  · next h =>
    refine iff_of_false (by decide) fun hc => ?_
    rcases h with h | h
    · exact absurd hc.1 (not_le.mpr (lt_of_lt_of_le h hf12))
    · exact absurd hc.2 (not_lt.mpr h)
  · next h =>
    push_neg at h
    split
    · next hc =>
      exact iff_of_false (by decide) fun hcond => absurd hcond.1 (not_le.mpr hc.2)
    · next hc =>
      push_neg at hc
      exact iff_of_true rfl ⟨hc h.1, h.2⟩

/-- C2: for every query time and calculation type, regime classification is
total and resolves to exactly the claimed regime: HighPrecision iff
`jd + J2000` is below the first fit segment's start minus the period
constant or at/after JD 2436935.0; FlatPhase iff it lies at/above that
lower bound and below the last segment's start minus the period constant;
FixedPhase otherwise (i.e. in neither of the other two conditions). -/
theorem regime_classification (jd : ℚ) (ct : CalculationType) :
    (determineCalculationMethod (jd + J2000) ct = .highPrecision ∨
      determineCalculationMethod (jd + J2000) ct = .flatPhase ∨
      determineCalculationMethod (jd + J2000) ct = .fixedPhase) ∧
    (determineCalculationMethod (jd + J2000) ct = .highPrecision ↔
      (jd + J2000 < segStart (getFitParameters ct) 0 - getPeriodConstant ct ∨
        JD_1960 ≤ jd + J2000)) ∧
    (determineCalculationMethod (jd + J2000) ct = .flatPhase ↔
      (segStart (getFitParameters ct) 0 - getPeriodConstant ct ≤ jd + J2000 ∧
        jd + J2000 <
          ((getFitParameters ct).getLastD default).startJulianDay - getPeriodConstant ct)) ∧
    (determineCalculationMethod (jd + J2000) ct = .fixedPhase ↔
      (¬(jd + J2000 < segStart (getFitParameters ct) 0 - getPeriodConstant ct ∨
          JD_1960 ≤ jd + J2000) ∧
       ¬(segStart (getFitParameters ct) 0 - getPeriodConstant ct ≤ jd + J2000 ∧
          jd + J2000 <
            ((getFitParameters ct).getLastD default).startJulianDay - getPeriodConstant ct))) := by
  have hf12 := f1_le_f2 ct
  refine ⟨?_, dcm_highPrecision_iff _ ct, dcm_flatPhase_iff _ ct, ?_⟩
  · cases h : determineCalculationMethod (jd + J2000) ct
    · exact Or.inl rfl
    · exact Or.inr (Or.inl rfl)
    · exact Or.inr (Or.inr rfl)
  · rw [dcm_fixedPhase_iff _ ct]
    constructor
    · intro hc
      push_neg
      refine ⟨⟨le_trans hf12 hc.1, hc.2⟩, fun _ => hc.1⟩
    · intro hc
      push_neg at hc
      exact ⟨hc.2 hc.1.1, hc.1.2⟩

/-- C3: for every time classified into the flat-period regime, the result
of `calculate_flat_phase` is the flat-period formula evaluated at the last
fit segment whose start is at or below `t + phase_const` (with the half-day
rounding, the single one-day correction at Julian Day 1683460.0, and the
shift to a J2000-relative value, all as in `flatFormulaAt`). -/
theorem flat_phase_formula (jd : ℚ) (ct : CalculationType)
    (hregime : determineCalculationMethod (jd + J2000) ct = .flatPhase)
    (j : ℕ) (hj : j < (getFitParameters ct).length)
    (hjle : segStart (getFitParameters ct) j ≤ jd + J2000 + getPeriodConstant ct)
    (hlast : ∀ k, k < (getFitParameters ct).length →
      segStart (getFitParameters ct) k ≤ jd + J2000 + getPeriodConstant ct → k ≤ j) :
    calculateFlatPhase (jd + J2000) ct =
      flatFormulaAt (getFitParameters ct) (getPeriodConstant ct) (jd + J2000) j := by
  have hmono := table_mono ct
  have hx0 : segStart (getFitParameters ct) 0 ≤ jd + J2000 + getPeriodConstant ct := by
    have h1 := ((dcm_flatPhase_iff (jd + J2000) ct).mp hregime).1
    linarith
  have hlen : 0 < (getFitParameters ct).length := by
    cases ct <;> simp [getFitParameters, QI_FIT_PARAMETERS, SHUO_FIT_PARAMETERS]
  have hspec := flatIdxGo_spec (jd + J2000 + getPeriodConstant ct) (getFitParameters ct) hmono
    (getFitParameters ct).length 0 hlen hx0 (by omega)
  have hjr : flatIdxGo (jd + J2000 + getPeriodConstant ct) (getFitParameters ct)
      (getFitParameters ct).length 0 = j :=
    le_antisymm (hlast _ hspec.1 hspec.2.1) (hspec.2.2 j hj hjle)
  unfold calculateFlatPhase
  rw [hjr]

theorem flat_phase_formula_witness :
    (determineCalculationMethod (-951545 + J2000) CalculationType.shuo =
      CalculationMethod.flatPhase ∧
     0 < (getFitParameters CalculationType.shuo).length ∧
     segStart (getFitParameters CalculationType.shuo) 0 ≤
       -951545 + J2000 + getPeriodConstant CalculationType.shuo ∧
     (∀ k, k < (getFitParameters CalculationType.shuo).length →
       segStart (getFitParameters CalculationType.shuo) k ≤
         -951545 + J2000 + getPeriodConstant CalculationType.shuo → k ≤ 0)) ∧
    calculateFlatPhase (-951545 + J2000) CalculationType.shuo =
      flatFormulaAt (getFitParameters CalculationType.shuo)
        (getPeriodConstant CalculationType.shuo) (-951545 + J2000) 0 := by
  have h1 : determineCalculationMethod (-951545 + J2000) CalculationType.shuo =
      CalculationMethod.flatPhase := by
    rw [dcm_flatPhase_iff, show getFitParameters CalculationType.shuo = SHUO_FIT_PARAMETERS
      from rfl, shuo_table_last, show segStart SHUO_FIT_PARAMETERS 0 = 1457698.231017 from rfl]
    norm_num [getPeriodConstant, J2000]
  have h2 : 0 < (getFitParameters CalculationType.shuo).length := by
    simp [getFitParameters, SHUO_FIT_PARAMETERS]
  have h3 : segStart (getFitParameters CalculationType.shuo) 0 ≤
      -951545 + J2000 + getPeriodConstant CalculationType.shuo := by
    rw [show segStart (getFitParameters CalculationType.shuo) 0 = 1457698.231017 from rfl]
    norm_num [getPeriodConstant, J2000]
  have h4 : ∀ k, k < (getFitParameters CalculationType.shuo).length →
      segStart (getFitParameters CalculationType.shuo) k ≤
        -951545 + J2000 + getPeriodConstant CalculationType.shuo → k ≤ 0 := by
    intro k hk hle
    have hk11 : k < 11 := by
      simpa [getFitParameters, SHUO_FIT_PARAMETERS] using hk
    interval_cases k
    · exact le_refl 0
    all_goals {
      rw [show getFitParameters CalculationType.shuo = SHUO_FIT_PARAMETERS from rfl] at hle
      norm_num [segStart, SHUO_FIT_PARAMETERS, getPeriodConstant, J2000] at hle
    }
  exact ⟨⟨h1, h2, h3, h4⟩, flat_phase_formula (-951545) CalculationType.shuo h1 0 h2 h3 h4⟩

/-! Section: LunarPhaseCalculator orchestrator
State and methods of `lunar_phase_calculator.rs`.  Arrays are modelled as
total functions on `ℕ`; every index the embedded code reads or writes is
within the Rust array bounds (`jieqi[2*i]` with `i < 13`, `shuo[i+1]` with
`i + 1 ≤ 13`, `month_indices[j]` with `j < 14`). -/

/-- Calculator state (`LunarPhaseCalculator` struct). -/
structure LunarPhaseCalculator where
  jieqi : ℕ → ℚ
  preJieqi : ℕ → ℚ
  shuo : ℕ → ℚ
  monthIndices : ℕ → ℤ
  monthLengths : ℕ → ℚ
  leapMonth : Option ℤ

/-- Scan loop of `determine_leap_month`: starting from `i = 1`, advance
while `i < 13` and the (i+1)-th new moon is strictly later than the
(2i)-th solar term.  `fuel` bounds the iterations; it is called with 13,
which the loop (at most 12 steps from `i = 1`) can never exhaust. -/
def leapLoopGo (s : LunarPhaseCalculator) : ℕ → ℕ → ℕ
  | 0, i => i
  | fuel + 1, i =>
    if i < 13 then
      if s.jieqi (2 * i) < s.shuo (i + 1) then leapLoopGo s fuel (i + 1) else i
    else i

/-- Source `determine_leap_month`: if the 14th new moon is at or before the 25th
solar term, record the scan result as the leap month and decrement the
month index of every month from it through 13; otherwise leave the state
untouched. -/
def determineLeapMonth (s : LunarPhaseCalculator) : LunarPhaseCalculator :=
  if s.shuo 13 ≤ s.jieqi 24 then
    { s with
      leapMonth := some ((leapLoopGo s 13 1 : ℕ) : ℤ),
      monthIndices := fun j =>
        if leapLoopGo s 13 1 ≤ j ∧ j < 14 then s.monthIndices j - 1 else s.monthIndices j }
  else s

theorem leapLoopGo_spec (s : LunarPhaseCalculator) :
    ∀ fuel i, 1 ≤ i → i ≤ 13 → 13 ≤ fuel + i →
      i ≤ leapLoopGo s fuel i ∧ leapLoopGo s fuel i ≤ 13 ∧
      (∀ k, i ≤ k → k < leapLoopGo s fuel i → s.jieqi (2 * k) < s.shuo (k + 1)) ∧
      (leapLoopGo s fuel i < 13 →
        s.shuo (leapLoopGo s fuel i + 1) ≤ s.jieqi (2 * leapLoopGo s fuel i)) := by
  intro fuel
  induction fuel with
  | zero =>
    intro i h1 h13 hfuel
    simp only [leapLoopGo]
    exact ⟨le_refl i, h13, fun k hk1 hk2 => by omega, fun hlt => by omega⟩
  | succ fuel ih =>
    intro i h1 h13 hfuel
    by_cases hi : i < 13
    · by_cases htest : s.jieqi (2 * i) < s.shuo (i + 1)
      · have hrec := ih (i + 1) (by omega) (by omega) (by omega)
        simp only [leapLoopGo, if_pos hi, if_pos htest]
        refine ⟨by omega, hrec.2.1, fun k hk1 hk2 => ?_, hrec.2.2.2⟩
        rcases Nat.lt_or_ge k (i + 1) with hk | hk
        · have : k = i := by omega
          exact this ▸ htest
        · exact hrec.2.2.1 k hk hk2
      · simp only [leapLoopGo, if_pos hi, if_neg htest]
        exact ⟨le_refl i, h13, fun k hk1 hk2 => by omega, fun _ => not_lt.mp htest⟩
    · simp only [leapLoopGo, if_neg hi]
      exact ⟨le_refl i, h13, fun k hk1 hk2 => by omega, fun hlt => absurd hlt hi⟩

/-- C1: when the 14th new moon is at or before the 25th solar term,
`determine_leap_month` sets `leap_month` to the smallest index `i ≥ 1`
(capped at 13) at which the scan test `shuo[i+1] > jieqi[2i]` first fails,
and decrements `month_indices[j]` by one exactly for `j` from `i` through
13. -/
theorem determine_leap_month_rule (s : LunarPhaseCalculator)
    (h : s.shuo 13 ≤ s.jieqi 24) :
    1 ≤ leapLoopGo s 13 1 ∧ leapLoopGo s 13 1 ≤ 13 ∧
    (∀ k, 1 ≤ k → k < leapLoopGo s 13 1 → s.jieqi (2 * k) < s.shuo (k + 1)) ∧
    (leapLoopGo s 13 1 < 13 →
      s.shuo (leapLoopGo s 13 1 + 1) ≤ s.jieqi (2 * leapLoopGo s 13 1)) ∧
    (determineLeapMonth s).leapMonth = some ((leapLoopGo s 13 1 : ℕ) : ℤ) ∧
    (∀ j, (determineLeapMonth s).monthIndices j =
      if leapLoopGo s 13 1 ≤ j ∧ j < 14 then s.monthIndices j - 1 else s.monthIndices j) := by
  have hspec := leapLoopGo_spec s 13 1 (le_refl 1) (by omega) (by omega)
  refine ⟨hspec.1, hspec.2.1, hspec.2.2.1, hspec.2.2.2, ?_, ?_⟩
  · simp only [determineLeapMonth, if_pos h]
  · intro j
    simp only [determineLeapMonth, if_pos h]

/-- Leap-month fixture: 25 solar terms at 15-day spacing and 14 new moons
arranged so that the scan holds for `i = 1..5` and first fails at `i = 6`
(`shuo[7] = 175 ≤ jieqi[12] = 180`), with `shuo[13] = 355 ≤ jieqi[24] =
360`. -/
def leapFixture : LunarPhaseCalculator where
  jieqi := fun n => 15 * n
  preJieqi := fun _ => 0
  shuo := fun n => [0, 2, 31, 61, 91, 121, 151, 175,
    205, 235, 265, 295, 325, 355].getD n 0
  monthIndices := fun j => (j : ℤ)
  monthLengths := fun _ => 0
  leapMonth := none

theorem leapFixture_loop : leapLoopGo leapFixture 13 1 = 6 := by
  norm_num [leapLoopGo, leapFixture, List.getD]

theorem determine_leap_month_rule_witness :
    leapFixture.shuo 13 ≤ leapFixture.jieqi 24 ∧
    (determineLeapMonth leapFixture).leapMonth = some 6 ∧
    (∀ j, 7 ≤ j → j ≤ 13 →
      (determineLeapMonth leapFixture).monthIndices j = leapFixture.monthIndices j - 1) := by
  have hle : leapFixture.shuo 13 ≤ leapFixture.jieqi 24 := by
    norm_num [leapFixture, List.getD]
  have hrule := determine_leap_month_rule leapFixture hle
  refine ⟨hle, ?_, ?_⟩
  · rw [hrule.2.2.2.2.1, leapFixture_loop]
    norm_num
  · intro j hj7 hj13
    rw [hrule.2.2.2.2.2 j, leapFixture_loop, if_pos (by omega)]

/-- C10: when the 14th new moon is strictly after the 25th solar term,
`determine_leap_month` modifies nothing at all: the whole state (in
particular `leap_month` and every month index) is unchanged. -/
theorem determine_leap_month_frame (s : LunarPhaseCalculator)
    (h : s.jieqi 24 < s.shuo 13) : determineLeapMonth s = s := by
  unfold determineLeapMonth
  rw [if_neg (not_le.mpr h)]

/-- Frame fixture: the leap fixture with its 25th solar term moved to 340,
so that the 14th new moon (355) falls strictly after it. -/
def frameFixture : LunarPhaseCalculator :=
  { leapFixture with jieqi := fun n => if n = 24 then 340 else 15 * n }

theorem determine_leap_month_frame_witness :
    frameFixture.jieqi 24 < frameFixture.shuo 13 ∧
    determineLeapMonth frameFixture = frameFixture := by
  have h : frameFixture.jieqi 24 < frameFixture.shuo 13 := by
    norm_num [frameFixture, leapFixture, List.getD]
  exact ⟨h, determine_leap_month_frame frameFixture h⟩

/-! Section: Phase dispatch and solar-term generation
`calculate_phase`, `calculate_high_precision`, `calculate_fixed_phase`,
`calculate_base_date` and the `jieqi[i]` assignments of `calculate_jie`.
The irrational constant π and the correction accessors
`get_qi_correction` / `get_shuo_correction` (whose defining module
`compressed_qishuo_correction_data` is not among the provided sources) are
abstracted as parameters `piQ`, `qiCorr`, `shuoCorr`; the verified facts
below never evaluate them. -/

/-- Fixed Julian Day 1999-03-21 12:00 (`JD_1999_3_21_12_00_00`). -/
def JD_1999 : ℚ := 2451259.0

/-- Fixed Julian Day 2000-01-07 12:00 (`JD_2000_1_7_12_00_00`). -/
def JD_2000_1_7 : ℚ := 2451551.0

/-- Source `calculate_qi_high_precision`: an unimplemented stub in the source
("these functions need to be converted from eph.cpp"); it ignores its
angle argument and returns 0.0. -/
def calculateQiHighPrecision (_angle : ℚ) : ℚ := 0

/-- Source `calculate_shuo_high_precision`: the same unimplemented stub. -/
def calculateShuoHighPrecision (_angle : ℚ) : ℚ := 0

/-- Source `calculate_high_precision` on the absolute Julian Day `x`. -/
def calculateHighPrecision (piQ x : ℚ) (ct : CalculationType) : ℚ :=
  match ct with
  | .qi =>
    (⌊calculateQiHighPrecision
      ((x + getPeriodConstant ct - JD_1999) / TROPICAL_YEAR_DAYS * 24 * piQ / 12)⌋ : ℚ) + 1
  | .shuo =>
    (⌊calculateShuoHighPrecision
      ((x + getPeriodConstant ct - JD_2000_1_7) / LUNAR_MONTH_DAYS * 2 * piQ)⌋ : ℚ) + 1

/-- Source `calculate_fixed_phase` on the absolute Julian Day `x`: the same
closed-form estimate as the high-precision branch, adjusted by the decoded
correction symbol (1 adds a day, 2 subtracts a day, anything else is a
no-op). -/
def calculateFixedPhase (piQ : ℚ) (qiCorr shuoCorr : ℚ → ℚ → ℕ) (x : ℚ)
    (ct : CalculationType) : ℚ :=
  let f2 := ((getFitParameters ct).getLastD default).startJulianDay - getPeriodConstant ct
  let n := match ct with
    | .qi => qiCorr x f2
    | .shuo => shuoCorr x f2
  calculateHighPrecision piQ x ct + (if n = 1 then 1 else if n = 2 then -1 else 0)

/-- Source `calculate_phase`: adds J2000 to the query time and dispatches on the
classified regime. -/
def calculatePhase (piQ : ℚ) (qiCorr shuoCorr : ℚ → ℚ → ℕ) (jd : ℚ)
    (ct : CalculationType) : ℚ :=
  match determineCalculationMethod (jd + J2000) ct with
  | .highPrecision => calculateHighPrecision piQ (jd + J2000) ct
  | .flatPhase => calculateFlatPhase (jd + J2000) ct
  | .fixedPhase => calculateFixedPhase piQ qiCorr shuoCorr (jd + J2000) ct

/-- The initial `base` value of `calculate_base_date`. -/
def baseCandidate (julianDay : ℚ) : ℚ :=
  (⌊(julianDay - 355 + 183) / TROPICAL_YEAR_DAYS⌋ : ℚ) * TROPICAL_YEAR_DAYS + 355

/-- Source `calculate_base_date`. -/
def calculateBaseDate (piQ : ℚ) (qiCorr shuoCorr : ℚ → ℚ → ℕ) (julianDay : ℚ) : ℚ :=
  if julianDay < calculatePhase piQ qiCorr shuoCorr (baseCandidate julianDay) .qi then
    baseCandidate julianDay - TROPICAL_YEAR_DAYS
  else baseCandidate julianDay

/-- The value `calculate_jie` stores into `jieqi[i]` for a query time. -/
def jieqiOf (piQ : ℚ) (qiCorr shuoCorr : ℚ → ℚ → ℕ) (julianDay : ℚ) (i : ℕ) : ℚ :=
  calculatePhase piQ qiCorr shuoCorr
    (calculateBaseDate piQ qiCorr shuoCorr julianDay + JIEQI_INTERVAL * (i : ℚ)) .qi

theorem calculatePhase_qi_modern (piQ : ℚ) (qiCorr shuoCorr : ℚ → ℚ → ℕ) (jd : ℚ)
    (h : JD_1960 ≤ jd + J2000) :
    calculatePhase piQ qiCorr shuoCorr jd .qi = 1 := by
  unfold calculatePhase
  rw [(dcm_highPrecision_iff (jd + J2000) .qi).mpr (Or.inr h)]
  simp [calculateHighPrecision, calculateQiHighPrecision]

/-- C6 fails on the code: the high-precision solar-term solver is an
unimplemented stub returning 0.0, so at query time 0 (JD 2451545, January
2000) every solar term of the year collapses to the constant 1.0; in
particular `jieqi[0] = jieqi[1] = 1`, so the 25 stored instants are neither
strictly increasing nor spaced ≈15.2184 days apart. -/
theorem jieqi_stub_collapse (piQ : ℚ) (qiCorr shuoCorr : ℚ → ℚ → ℕ) :
    jieqiOf piQ qiCorr shuoCorr 0 0 = 1 ∧
    jieqiOf piQ qiCorr shuoCorr 0 1 = 1 ∧
    ¬ jieqiOf piQ qiCorr shuoCorr 0 0 < jieqiOf piQ qiCorr shuoCorr 0 1 := by
  have hcand : baseCandidate 0 = -10.2422 := by
    unfold baseCandidate
    rw [show (⌊((0 : ℚ) - 355 + 183) / TROPICAL_YEAR_DAYS⌋ : ℤ) = -1 by
      rw [Int.floor_eq_iff]
      norm_num [TROPICAL_YEAR_DAYS]]
    norm_num [TROPICAL_YEAR_DAYS]
  have hbase : calculateBaseDate piQ qiCorr shuoCorr 0 = -375.4844 := by
    unfold calculateBaseDate
    rw [hcand,
      calculatePhase_qi_modern piQ qiCorr shuoCorr (-10.2422) (by norm_num [JD_1960, J2000])]
    norm_num [TROPICAL_YEAR_DAYS]
  have h0 : jieqiOf piQ qiCorr shuoCorr 0 0 = 1 := by
    unfold jieqiOf
    rw [hbase]
    exact calculatePhase_qi_modern piQ qiCorr shuoCorr _ (by norm_num [JD_1960, J2000])
  have h1 : jieqiOf piQ qiCorr shuoCorr 0 1 = 1 := by
    unfold jieqiOf
    rw [hbase]
    exact calculatePhase_qi_modern piQ qiCorr shuoCorr _
      (by norm_num [JD_1960, J2000, JIEQI_INTERVAL, TROPICAL_YEAR_DAYS])
  exact ⟨h0, h1, by rw [h0, h1]; exact lt_irrefl 1⟩

/-! Section: Delta-T model
Embeds `astronomy/delta_t.rs`.  The coefficient table `DT_AT` lives in
`astronomy/coefficients.rs`, which is not among the provided sources, so
the functions are parametrised by the table; the verified claim holds for
every table with at least the terminal (year, ΔT) pair. -/

/-- Source `extrapolate_quadratic`: `-20 + acc·((year − 1820)/100)²`. -/
def extrapolateQuadratic (year : ℚ) (acc : ℤ) : ℚ :=
  -20 + (acc : ℚ) * ((year - 1820) / 100) * ((year - 1820) / 100)

/-- Source `find_data_interval` loop: step through the table five entries at a
time until the next block's reference year exceeds `year`; fall back to the
last block. -/
def findDataIntervalGo (dtAT : List ℚ) (year : ℚ) : ℕ → ℕ → ℕ
  | 0, _ => dtAT.length - 5
  | fuel + 1, i =>
    if i < dtAT.length - 5 then
      if year < dtAT.getD (i + 5) 0 then i else findDataIntervalGo dtAT year fuel (i + 5)
    else dtAT.length - 5

/-- Source `find_data_interval`. -/
def findDataInterval (dtAT : List ℚ) (year : ℚ) : ℕ :=
  findDataIntervalGo dtAT year dtAT.length 0

/-- Source `interpolate_cubic`: cubic polynomial in the block-local parameter
`t ∈ [0, 10]`. -/
def interpolateCubic (dtAT : List ℚ) (year : ℚ) (i : ℕ) : ℚ :=
  dtAT.getD (i + 1) 0 +
    dtAT.getD (i + 2) 0 * ((year - dtAT.getD i 0) / (dtAT.getD (i + 5) 0 - dtAT.getD i 0) * 10) +
    dtAT.getD (i + 3) 0 * ((year - dtAT.getD i 0) / (dtAT.getD (i + 5) 0 - dtAT.getD i 0) * 10) *
      ((year - dtAT.getD i 0) / (dtAT.getD (i + 5) 0 - dtAT.getD i 0) * 10) +
    dtAT.getD (i + 4) 0 * ((year - dtAT.getD i 0) / (dtAT.getD (i + 5) 0 - dtAT.getD i 0) * 10) *
      ((year - dtAT.getD i 0) / (dtAT.getD (i + 5) 0 - dtAT.getD i 0) * 10) *
      ((year - dtAT.getD i 0) / (dtAT.getD (i + 5) 0 - dtAT.getD i 0) * 10)

/-- Source `calculate_delta_t`: quadratic extrapolation beyond the table (blended
linearly over the first 100 post-table years), cubic interpolation inside
it.  `dtAT.getD (len−2)` is the table's last year, `dtAT.getD (len−1)` its
terminal ΔT value. -/
def calculateDeltaT (dtAT : List ℚ) (year : ℚ) : ℚ :=
  if dtAT.getD (dtAT.length - 2) 0 ≤ year then
    if dtAT.getD (dtAT.length - 2) 0 + 100 < year then extrapolateQuadratic year 31
    else
      extrapolateQuadratic year 31 -
        (extrapolateQuadratic (dtAT.getD (dtAT.length - 2) 0) 31 -
            dtAT.getD (dtAT.length - 1) 0) *
          (dtAT.getD (dtAT.length - 2) 0 + 100 - year) / 100
  else interpolateCubic dtAT year (findDataInterval dtAT year)

/-- C7: for every table and every year at or beyond the table's last year
`y0`, ΔT is the pure quadratic `-20 + 31·((y−1820)/100)²` when
`y > y0 + 100`, and otherwise that quadratic minus
`(quadratic(y0) − terminal)·(y0 + 100 − y)/100`; the blend equals the
table's terminal ΔT value exactly at `y = y0`. -/
theorem delta_t_extrapolation (dtAT : List ℚ) (year : ℚ)
    (h : dtAT.getD (dtAT.length - 2) 0 ≤ year) :
    (dtAT.getD (dtAT.length - 2) 0 + 100 < year →
      calculateDeltaT dtAT year =
        -20 + 31 * ((year - 1820) / 100) * ((year - 1820) / 100)) ∧
    (year ≤ dtAT.getD (dtAT.length - 2) 0 + 100 →
      calculateDeltaT dtAT year =
        (-20 + 31 * ((year - 1820) / 100) * ((year - 1820) / 100)) -
          (extrapolateQuadratic (dtAT.getD (dtAT.length - 2) 0) 31 -
              dtAT.getD (dtAT.length - 1) 0) *
            (dtAT.getD (dtAT.length - 2) 0 + 100 - year) / 100) ∧
    calculateDeltaT dtAT (dtAT.getD (dtAT.length - 2) 0) = dtAT.getD (dtAT.length - 1) 0 := by
  refine ⟨fun hfar => ?_, fun hnear => ?_, ?_⟩
  · unfold calculateDeltaT
    rw [if_pos h, if_pos hfar]
    unfold extrapolateQuadratic
    norm_num
  · unfold calculateDeltaT
    rw [if_pos h, if_neg (not_lt.mpr hnear)]
    unfold extrapolateQuadratic
    norm_num
  · unfold calculateDeltaT
    rw [if_pos (le_refl _), if_neg (by norm_num)]
    unfold extrapolateQuadratic
    ring

theorem delta_t_extrapolation_witness :
    (([2020, 70] : List ℚ).getD (([2020, 70] : List ℚ).length - 2) 0 ≤ 2200 ∧
      ([2020, 70] : List ℚ).getD (([2020, 70] : List ℚ).length - 2) 0 + 100 < 2200 ∧
      calculateDeltaT [2020, 70] 2200 =
        -20 + 31 * ((2200 - 1820) / 100) * ((2200 - 1820) / 100)) ∧
    calculateDeltaT [2020, 70]
        (([2020, 70] : List ℚ).getD (([2020, 70] : List ℚ).length - 2) 0) =
      ([2020, 70] : List ℚ).getD (([2020, 70] : List ℚ).length - 1) 0 := by
  have h1 : ([2020, 70] : List ℚ).getD (([2020, 70] : List ℚ).length - 2) 0 ≤ 2200 := by
    norm_num [List.getD]
  have h2 : ([2020, 70] : List ℚ).getD (([2020, 70] : List ℚ).length - 2) 0 + 100 < 2200 := by
    norm_num [List.getD]
  exact ⟨⟨h1, h2, (delta_t_extrapolation [2020, 70] 2200 h1).1 h2⟩,
    (delta_t_extrapolation [2020, 70] 2200 h1).2.2⟩

/-! Section: Orbital series evaluator
Embeds `calculate_planet_coordinate` and `apply_planet_corrections` from
`astronomy/planetary_orbits.rs`.  The coefficient tables `XL0` / `XL0_XZB`
(in the missing `coefficients.rs`) are passed as list parameters, the
cosine as a function parameter `cosf`, and the irrational constant `RAD`
as a parameter `rad`; the verified structural claim holds for all of
them. -/

/-- Rust `as usize` on a (non-negative) floating value: truncation. -/
def qToNat (q : ℚ) : ℕ := q.floor.toNat

/-- Inner term loop: sum `co[j]·cos(co[j+1] + t·co[j+2])` for
`j = start, start+3, …` while `j < m`. -/
def termSumGo (cosf : ℚ → ℚ) (co : List ℚ) (t : ℚ) (m j : ℕ) : ℚ :=
  if j < m then
    co.getD j 0 * cosf (co.getD (j + 1) 0 + t * co.getD (j + 2) 0) +
      termSumGo cosf co t m (j + 3)
  else 0
termination_by m - j

/-- One iteration of the six-order loop, acting on the accumulator pair
`(result, t_power)`.  An order whose sub-range is empty only multiplies the
time-power accumulator by `t`; otherwise the (possibly truncated) term sum
is added, weighted by the current time power, and the accumulator is then
multiplied by `t`. -/
def orderStep (cosf : ℚ → ℚ) (co : List ℚ) (b : ℕ) (t : ℚ) (tc : ℤ)
    (acc : ℚ × ℚ) (i : ℕ) : ℚ × ℚ :=
  if qToNat (co.getD (b + i) 0) = qToNat (co.getD (b + i + 1) 0) then (acc.1, acc.2 * t)
  else
    (acc.1 +
      termSumGo cosf co t
        (if tc < 0 then qToNat (co.getD (b + i + 1) 0)
         else
           min
             (((round (3 * (tc : ℚ) *
                   ((qToNat (co.getD (b + i + 1) 0) : ℚ) - (qToNat (co.getD (b + i) 0) : ℚ)) /
                   (co.getD (b + 1) 0 - co.getD b 0))).toNat +
                 qToNat (co.getD (b + i) 0)) +
               (if 0 < i then 3 else 0))
             (qToNat (co.getD (b + i + 1) 0)))
        (qToNat (co.getD (b + i) 0)) * acc.2,
     acc.2 * t)

/-- The six-order accumulation loop of `calculate_planet_coordinate`:
`b = coordinate_index·6 + 1` is the base index of the per-order boundary
entries. -/
def planetSeries (cosf : ℚ → ℚ) (co : List ℚ) (coordIdx : ℕ) (t : ℚ) (tc : ℤ) : ℚ :=
  ((List.range 6).foldl (orderStep cosf co (coordIdx * 6 + 1) t tc) (0, 1)).1

/-- Source `apply_planet_corrections`. -/
def applyPlanetCorrections (rad : ℚ) (xzb : List ℚ) (planetIdx coordIdx : ℕ)
    (baseValue t : ℚ) : ℚ :=
  if planetIdx = 0 then
    match coordIdx with
    | 0 => baseValue + (-0.0728 - 2.7702 * t - 1.1019 * t * t - 0.0996 * t * t * t) / rad
    | 1 => baseValue + (0.0000 + 0.0004 * t + 0.0004 * t * t - 0.0026 * t * t * t) / rad
    | 2 => baseValue + (-0.0020 + 0.0044 * t + 0.0213 * t * t - 0.0250 * t * t * t) / 1000000
    | _ => baseValue
  else
    match coordIdx with
    | 0 => baseValue - 3 * t / rad
    | 2 => baseValue + xzb.getD ((planetIdx - 1) * 3 + coordIdx) 0 / 1000000
    | _ => baseValue + xzb.getD ((planetIdx - 1) * 3 + coordIdx) 0 / rad

/-- Source `calculate_planet_coordinate`: series accumulation, normalisation by
`co[0]`, then the body-specific corrections, at
`t = julian_centuries / 10` millennia. -/
def calculatePlanetCoordinate (cosf : ℚ → ℚ) (rad : ℚ) (xzb co : List ℚ)
    (planetIdx coordIdx : ℕ) (jc : ℚ) (tc : ℤ) : ℚ :=
  applyPlanetCorrections rad xzb planetIdx coordIdx
    (planetSeries cosf co coordIdx (jc / 10) tc / co.getD 0 0) (jc / 10)

/-- Specification-side sum of a whole order's terms: the order starting at
table index `start` with bound `m` has `⌈(m − start)/3⌉` terms. -/
def fullOrderSum (cosf : ℚ → ℚ) (co : List ℚ) (b : ℕ) (t : ℚ) (i : ℕ) : ℚ :=
  ∑ k ∈ Finset.range
      ((qToNat (co.getD (b + i + 1) 0) - qToNat (co.getD (b + i) 0) + 2) / 3),
    co.getD (qToNat (co.getD (b + i) 0) + 3 * k) 0 *
      cosf (co.getD (qToNat (co.getD (b + i) 0) + 3 * k + 1) 0 +
        t * co.getD (qToNat (co.getD (b + i) 0) + 3 * k + 2) 0)

theorem termSumGo_eq_sum (cosf : ℚ → ℚ) (co : List ℚ) (t : ℚ) :
    ∀ (m j : ℕ), termSumGo cosf co t m j =
      ∑ k ∈ Finset.range ((m - j + 2) / 3),
        co.getD (j + 3 * k) 0 *
          cosf (co.getD (j + 3 * k + 1) 0 + t * co.getD (j + 3 * k + 2) 0) := by
  intro m j
  by_cases h : j < m
  · rw [termSumGo, if_pos h, termSumGo_eq_sum cosf co t m (j + 3)]
    have hc : (m - j + 2) / 3 = ((m - (j + 3) + 2) / 3) + 1 := by omega
    rw [hc, Finset.sum_range_succ']
    have hterm : ∀ k, j + 3 + 3 * k = j + 3 * (k + 1) := by intro k; ring
    simp only [hterm]
    exact add_comm _ _
  · rw [termSumGo, if_neg h]
    have hc : (m - j + 2) / 3 = 0 := by omega
    rw [hc]
    simp
termination_by m j => m - j

theorem orderStep_neg (cosf : ℚ → ℚ) (co : List ℚ) (b : ℕ) (t : ℚ) (tc : ℤ)
    (htc : tc < 0) (acc : ℚ × ℚ) (i : ℕ) :
    orderStep cosf co b t tc acc i = (acc.1 + fullOrderSum cosf co b t i * acc.2, acc.2 * t) := by
  unfold orderStep
  by_cases h : qToNat (co.getD (b + i) 0) = qToNat (co.getD (b + i + 1) 0)
  · rw [if_pos h]
    have hz : fullOrderSum cosf co b t i = 0 := by
      unfold fullOrderSum
      rw [show (qToNat (co.getD (b + i + 1) 0) - qToNat (co.getD (b + i) 0) + 2) / 3 = 0 by
        omega]
      simp
    rw [hz]
    norm_num
  · rw [if_neg h, if_pos htc, termSumGo_eq_sum]
    unfold fullOrderSum
    rfl

/-- C8: with a negative truncation parameter, every order evaluates all of
its terms, and an order with an empty coefficient sub-range contributes no
term sum while the time-power accumulator is still advanced: the result is
the corrections applied to `(Σ_{i<6} tⁱ · (full sum of order i)) / co[0]`,
where an empty order's full sum is the empty sum 0 but its weight `tⁱ`
still shifts all later orders. -/
theorem planet_coordinate_full_series (cosf : ℚ → ℚ) (rad : ℚ) (xzb co : List ℚ)
    (planetIdx coordIdx : ℕ) (jc : ℚ) (tc : ℤ) (htc : tc < 0) :
    calculatePlanetCoordinate cosf rad xzb co planetIdx coordIdx jc tc =
      applyPlanetCorrections rad xzb planetIdx coordIdx
        ((∑ i ∈ Finset.range 6,
            (jc / 10) ^ i * fullOrderSum cosf co (coordIdx * 6 + 1) (jc / 10) i) /
          co.getD 0 0)
        (jc / 10) := by
  unfold calculatePlanetCoordinate planetSeries
  congr 2
  rw [show List.range 6 = [0, 1, 2, 3, 4, 5] from rfl]
  simp only [List.foldl, orderStep_neg cosf co (coordIdx * 6 + 1) (jc / 10) tc htc]
  rw [show (6 : ℕ) = 5 + 1 from rfl, Finset.sum_range_succ, Finset.sum_range_succ,
    Finset.sum_range_succ, Finset.sum_range_succ, Finset.sum_range_succ,
    Finset.sum_range_succ, Finset.sum_range_zero]
  ring

theorem planet_coordinate_full_series_witness :
    (-1 : ℤ) < 0 ∧
    calculatePlanetCoordinate (fun _ => 1) 1 [] [2, 1, 1, 4, 4, 4, 4, 7, 10, 20, 30] 0 0 0 (-1) =
      applyPlanetCorrections 1 [] 0 0
        ((∑ i ∈ Finset.range 6,
            ((0 : ℚ) / 10) ^ i *
              fullOrderSum (fun _ => 1) [2, 1, 1, 4, 4, 4, 4, 7, 10, 20, 30] (0 * 6 + 1)
                ((0 : ℚ) / 10) i) /
          ([2, 1, 1, 4, 4, 4, 4, 7, 10, 20, 30] : List ℚ).getD 0 0)
        ((0 : ℚ) / 10) :=
  ⟨by norm_num,
   planet_coordinate_full_series (fun _ => 1) 1 [] [2, 1, 1, 4, 4, 4, 4, 7, 10, 20, 30]
     0 0 0 (-1) (by norm_num)⟩

/-! Section: Fixed-capacity cache
Embeds `cache.rs`.  `ThreadSafeCache::get_or_compute` takes the lock for
its `get` and `insert` phases, so its sequential semantics is that of
`FixedCache` with explicit state passing; the closure is modelled as a
function on `Unit`, and `get_or_compute` additionally returns how many
times it invoked the closure.  `usize::MAX` as the initial
best-access-count sentinel of `insert` is modelled as `Option.none`. -/

/-- Source `CacheEntry` (the fixed-size `data` array is one opaque value `V`). -/
structure CacheEntry (K V : Type) where
  key : K
  data : V
  accessCount : ℕ

/-- Source `FixedCache`: capacity-many optional slots plus the access counter. -/
structure FixedCache (K V : Type) where
  entries : List (Option (CacheEntry K V))
  lruCounter : ℕ

/-- Scan of `FixedCache::get`: first entry with a matching key wins. -/
def getLoop {K V : Type} [DecidableEq K] : List (Option (CacheEntry K V)) → K → Option V
  | [], _ => none
  | none :: rest, k => getLoop rest k
  | some e :: rest, k => if e.key = k then some e.data else getLoop rest k

/-- Source `FixedCache::get`: returns the hit (if any) and the cache state, whose
access counter is bumped exactly on a hit. -/
def cacheGet {K V : Type} [DecidableEq K] (c : FixedCache K V) (k : K) :
    Option V × FixedCache K V :=
  match getLoop c.entries k with
  | some v => (some v, { c with lruCounter := c.lruCounter + 1 })
  | none => (none, c)

/-- Argmin scan of `FixedCache::insert` over occupied slots: first index
whose access count is strictly smaller than the best so far wins. -/
def minAccessGo {K V : Type} :
    List (Option (CacheEntry K V)) → ℕ → ℕ → Option ℕ → ℕ
  | [], _, bestIdx, _ => bestIdx
  | none :: rest, i, bestIdx, bestVal => minAccessGo rest (i + 1) bestIdx bestVal
  | some en :: rest, i, bestIdx, bestVal =>
    match bestVal with
    | none => minAccessGo rest (i + 1) i (some en.accessCount)
    | some bv =>
      if en.accessCount < bv then minAccessGo rest (i + 1) i (some en.accessCount)
      else minAccessGo rest (i + 1) bestIdx bestVal

/-- Source `FixedCache::insert`: fill the first empty slot if one exists
(the source returns early from its scan there), otherwise replace the slot
with the lowest recorded access count. -/
def cacheInsert {K V : Type} [DecidableEq K] (c : FixedCache K V) (k : K) (d : V) :
    FixedCache K V :=
  match c.entries.findIdx? Option.isNone with
  | some i => { c with entries := c.entries.set i (some ⟨k, d, c.lruCounter⟩) }
  | none =>
    { c with
      entries := c.entries.set (minAccessGo c.entries 0 0 none) (some ⟨k, d, c.lruCounter⟩) }

/-- Source `ThreadSafeCache::get_or_compute` (sequential semantics): returns the
value, the resulting cache state, and the number of times the supplied
closure was invoked (0 on a hit, 1 on a miss). -/
def getOrCompute {K V : Type} [DecidableEq K] (c : FixedCache K V) (k : K)
    (f : Unit → V) : V × FixedCache K V × ℕ :=
  match cacheGet c k with
  | (some d, c1) => (d, c1, 0)
  | (none, c1) => (f (), cacheInsert c1 k (f ()), 1)

theorem minAccessGo_lt {K V : Type} :
    ∀ (l : List (Option (CacheEntry K V))) (i bestIdx : ℕ) (bestVal : Option ℕ),
      minAccessGo l i bestIdx bestVal < i + l.length ∨ minAccessGo l i bestIdx bestVal = bestIdx := by
  intro l
  induction l with
  | nil => intro i bestIdx bestVal; right; rfl
  | cons e rest ih =>
    intro i bestIdx bestVal
    match e with
    | none =>
      rcases ih (i + 1) bestIdx bestVal with h | h
      · left; simp only [minAccessGo]; simp only [List.length_cons]; omega
      · right; simpa [minAccessGo] using h
    | some en =>
      match bestVal with
      | none =>
        rcases ih (i + 1) i (some en.accessCount) with h | h
        · left; simp only [minAccessGo]; simp only [List.length_cons]; omega
        · left; simp only [minAccessGo]; simp only [List.length_cons]; omega
      | some bv =>
        by_cases hlt : en.accessCount < bv
        · rcases ih (i + 1) i (some en.accessCount) with h | h
          · left; simp only [minAccessGo, if_pos hlt]; simp only [List.length_cons]; omega
          · left; simp only [minAccessGo, if_pos hlt]; simp only [List.length_cons]; omega
        · rcases ih (i + 1) bestIdx (some bv) with h | h
          · left; simp only [minAccessGo, if_neg hlt]; simp only [List.length_cons]; omega
          · right; simpa [minAccessGo, if_neg hlt] using h

theorem findIdx?_lt_length_aux {α : Type} (p : α → Bool) :
    ∀ (l : List α) (s i : ℕ), List.findIdx? p l s = some i → i < s + l.length := by
  intro l
  induction l with
  | nil => intro s i h; simp at h
  | cons a rest ih =>
    intro s i h
    rw [List.findIdx?_cons] at h
    by_cases hp : p a
    · rw [if_pos hp] at h
      simp only [Option.some.injEq] at h
      subst h
      simp
    · rw [if_neg hp] at h
      have := ih (s + 1) i h
      simp only [List.length_cons]
      omega

theorem findIdx?_lt_length {α : Type} (p : α → Bool) (l : List α) (i : ℕ)
    (h : l.findIdx? p = some i) : i < l.length := by
  have := findIdx?_lt_length_aux p l 0 i h
  omega

theorem getLoop_set {K V : Type} [DecidableEq K] (k : K) (d : V) (a : ℕ) :
    ∀ (l : List (Option (CacheEntry K V))) (i : ℕ), i < l.length →
      getLoop l k = none →
      getLoop (l.set i (some ⟨k, d, a⟩)) k = some d := by
  intro l
  induction l with
  | nil => intro i h; simp at h
  | cons e rest ih =>
    intro i hi habs
    match i with
    | 0 =>
      simp only [List.set]
      rw [getLoop, if_pos rfl]
    | j + 1 =>
      simp only [List.set]
      match e with
      | none =>
        rw [getLoop]
        rw [getLoop] at habs
        exact ih j (by simp at hi; omega) habs
      | some en =>
        rw [getLoop] at habs ⊢
        by_cases hk : en.key = k
        · rw [if_pos hk] at habs; exact absurd habs (by simp)
        · rw [if_neg hk] at habs ⊢
          exact ih j (by simp at hi; omega) habs

theorem getLoop_after_insert {K V : Type} [DecidableEq K] (c : FixedCache K V)
    (k : K) (d : V) (hcap : 1 ≤ c.entries.length)
    (habs : getLoop c.entries k = none) :
    getLoop (cacheInsert c k d).entries k = some d := by
  unfold cacheInsert
  match hidx : c.entries.findIdx? Option.isNone with
  | some i =>
    exact getLoop_set k d c.lruCounter c.entries i
      (findIdx?_lt_length Option.isNone c.entries i hidx) habs
  | none =>
    have hlt : minAccessGo c.entries 0 0 none < c.entries.length := by
      rcases minAccessGo_lt c.entries 0 0 none with h | h
      · simpa using h
      · omega
    exact getLoop_set k d c.lruCounter c.entries _ hlt habs

/-- C9 (amended): for a cache of capacity at least 1 in whose current state
the key is not present, two sequential `get_or_compute` calls with that key
invoke the closure exactly once — the first call misses, computes `f ()`
and installs it; the second hits and returns the cached copy without
invoking its closure. -/
theorem get_or_compute_invokes_once {K V : Type} [DecidableEq K]
    (c : FixedCache K V) (k : K) (f : Unit → V)
    (hcap : 1 ≤ c.entries.length) (habs : getLoop c.entries k = none) :
    (getOrCompute c k f).2.2 = 1 ∧ (getOrCompute c k f).1 = f () ∧
    (getOrCompute (getOrCompute c k f).2.1 k f).2.2 = 0 ∧
    (getOrCompute (getOrCompute c k f).2.1 k f).1 = f () := by
  have hfirst : getOrCompute c k f = (f (), cacheInsert c k (f ()), 1) := by
    unfold getOrCompute cacheGet
    rw [habs]
  have hsecond : getLoop (cacheInsert c k (f ())).entries k = some (f ()) :=
    getLoop_after_insert c k (f ()) hcap habs
  refine ⟨by rw [hfirst], by rw [hfirst], ?_, ?_⟩
  · rw [hfirst]
    unfold getOrCompute cacheGet
    rw [hsecond]
  · rw [hfirst]
    unfold getOrCompute cacheGet
    rw [hsecond]

/-- A capacity-1 cache over `ℕ` keys/values that already holds key 0. -/
def occupiedCache : FixedCache ℕ ℕ := ⟨[some ⟨0, 5, 0⟩], 0⟩

/-- C9 as stated is false: on a capacity-1 cache that already contains the
key, two sequential `get_or_compute` calls invoke the closure zero times,
not exactly once (both calls hit). -/
theorem get_or_compute_invokes_once_cex :
    1 ≤ occupiedCache.entries.length ∧
    ¬ ((getOrCompute occupiedCache 0 (fun _ => 7)).2.2 +
        (getOrCompute (getOrCompute occupiedCache 0 (fun _ => 7)).2.1 0
          (fun _ => 7)).2.2 = 1) := by
  constructor
  · simp [occupiedCache]
  · intro h
    rw [show getOrCompute occupiedCache 0 (fun _ => 7) =
        (5, { occupiedCache with lruCounter := 1 }, 0) from rfl] at h
    rw [show getOrCompute { occupiedCache with lruCounter := 1 } 0 (fun _ => 7) =
        (5, { occupiedCache with lruCounter := 2 }, 0) from rfl] at h
    simp at h

/-- A fresh capacity-1 cache over `ℕ` keys/values. -/
def freshCache : FixedCache ℕ ℕ := ⟨[none], 0⟩

theorem get_or_compute_invokes_once_witness :
    (1 ≤ freshCache.entries.length ∧ getLoop freshCache.entries 0 = none) ∧
    (getOrCompute freshCache 0 (fun _ => 7)).2.2 = 1 ∧
    (getOrCompute freshCache 0 (fun _ => 7)).1 = 7 ∧
    (getOrCompute (getOrCompute freshCache 0 (fun _ => 7)).2.1 0 (fun _ => 7)).2.2 = 0 ∧
    (getOrCompute (getOrCompute freshCache 0 (fun _ => 7)).2.1 0 (fun _ => 7)).1 = 7 := by
  have h1 : 1 ≤ freshCache.entries.length := by simp [freshCache]
  have h2 : getLoop freshCache.entries (0 : ℕ) = none := rfl
  exact ⟨⟨h1, h2⟩, get_or_compute_invokes_once freshCache 0 (fun _ => 7) h1 h2⟩

end SxtwlRs
